import Mathlib

/-!
Verification of the EndesaHunter invoice-harvesting pipeline
(`src/lib/EndesaHunter.ts`).

The browser, the `moment` date library and the filesystem are external
collaborators of the code; they are modelled explicitly: a parsed date is an
`Option SimpleDate` (`none` models an invalid moment), page row extraction is
given as the list of raw date labels of the rows, and the effects of `run`
are recorded as an event trace.
-/

namespace EndesaHunter

/-- A calendar date, the model of a valid `moment` value. -/
structure SimpleDate where
  year : Nat
  month : Nat
  day : Nat
deriving DecidableEq, Repr

/-- Chronological strict order on dates (lexicographic on year, month, day),
modelling comparison of two valid moments. -/
def dateLt (a b : SimpleDate) : Bool :=
  decide (a.year < b.year ∨ (a.year = b.year ∧
    (a.month < b.month ∨ (a.month = b.month ∧ a.day < b.day))))

theorem dateLt_iff (a b : SimpleDate) :
    dateLt a b = true ↔
      (a.year < b.year ∨ (a.year = b.year ∧
        (a.month < b.month ∨ (a.month = b.month ∧ a.day < b.day)))) := by
  simp [dateLt]

theorem dateLt_irrefl (a : SimpleDate) : dateLt a a = false := by
  simp [dateLt]

/-- Models `moment.isBefore`: comparison with an invalid moment on either
side yields `false`. -/
def momentIsBefore : Option SimpleDate → Option SimpleDate → Bool
  | some a, some b => dateLt a b
  | _, _ => false

theorem momentIsBefore_some_iff (w : SimpleDate) (x : Option SimpleDate) :
    momentIsBefore (some w) x = true ↔ ∃ d, x = some d ∧ dateLt w d = true := by
  cases x <;> simp [momentIsBefore]

theorem momentIsBefore_none (x : Option SimpleDate) :
    momentIsBefore x none = false := by
  cases x <;> simp [momentIsBefore]

/-- JavaScript whitespace test used by `String.prototype.trim` (restricted to
the common ASCII whitespace characters). -/
def isSpaceChar (c : Char) : Bool :=
  c = ' ' || c = '\t' || c = '\n' || c = '\r'

/-- Models JavaScript `String.prototype.trim` (`date.trim()` in the source):
strips leading and trailing whitespace. -/
def jsTrim (s : String) : String :=
  ⟨((s.data.dropWhile isSpaceChar).reverse.dropWhile isSpaceChar).reverse⟩

/-- The `ProcessedRow` record of the source: parsed date, the 1-based
`nth-child` index of the row selector, and the trimmed raw date label. -/
structure ProcessedRow where
  date : Option SimpleDate
  selector : Nat
  rawDate : String
deriving DecidableEq, Repr

/-- The loop body of `findRowsToProcess` (lines 214–234): walk the rows in
page order, parse each trimmed date label, and push the row exactly when
`lastInvoiceDate.isBefore(currentDate)`.  `parse` models
`moment(text, pageDateFormat, pageLocale)`; the index argument carries the
0-based loop counter `i`, the stored selector index is `i + 1`. -/
def findRowsLoop (parse : String → Option SimpleDate)
    (lastInvoiceDate : Option SimpleDate) :
    List String → Nat → List ProcessedRow
  | [], _ => []
  | s :: rest, i =>
    (if momentIsBefore lastInvoiceDate (parse (jsTrim s)) then
      [⟨parse (jsTrim s), i + 1, jsTrim s⟩] else []) ++
    findRowsLoop parse lastInvoiceDate rest (i + 1)

/-- `findRowsToProcess` (lines 204–237): throws when the page was never
initialized, otherwise runs the filtering loop over all rows. -/
def findRowsToProcess (pageInitialized : Bool)
    (parse : String → Option SimpleDate)
    (lastInvoiceDate : Option SimpleDate) (rows : List String) :
    Except String (List ProcessedRow) :=
  if pageInitialized then .ok (findRowsLoop parse lastInvoiceDate rows 0)
  else .error "Page not initialized"

theorem mem_findRowsLoop_iff (parse : String → Option SimpleDate)
    (w : Option SimpleDate) (rows : List String) (j : Nat) (r : ProcessedRow) :
    r ∈ findRowsLoop parse w rows j ↔
      ∃ i s, rows[i]? = some s ∧
        momentIsBefore w (parse (jsTrim s)) = true ∧
        r = ⟨parse (jsTrim s), j + i + 1, jsTrim s⟩ := by
  induction rows generalizing j with
  | nil => simp [findRowsLoop]
  | cons a rest ih =>
    constructor
    · intro hr
      simp only [findRowsLoop, List.mem_append] at hr
      rcases hr with hr | hr
      · have hcond : momentIsBefore w (parse (jsTrim a)) = true := by
          by_contra hc
          rw [Bool.not_eq_true] at hc
          simp [hc] at hr
        refine ⟨0, a, by simp, hcond, ?_⟩
        simp only [hcond, if_true, List.mem_singleton] at hr
        simp [hr]
      · rcases (ih (j + 1)).mp hr with ⟨i, s, hs, hb, hr⟩
        exact ⟨i + 1, s, by simpa using hs, hb,
          by simpa [Nat.add_assoc, Nat.add_comm 1 i] using hr⟩
    · rintro ⟨i, s, hs, hb, hr⟩
      simp only [findRowsLoop, List.mem_append]
      match i with
      | 0 =>
        left
        simp only [List.getElem?_cons_zero, Option.some.injEq] at hs
        subst hs
        simp [hb, hr]
      | i + 1 =>
        right
        simp only [List.getElem?_cons_succ] at hs
        exact (ih (j + 1)).mpr ⟨i, s, hs, hb,
          by simpa [Nat.add_assoc, Nat.add_comm 1 i] using hr⟩

/-- C1: a row whose date label parses to `d` is selected by
`findRowsToProcess` iff the watermark is strictly before `d`; ties and
older rows are excluded. -/
theorem findRowsToProcess_selects_iff_watermark_isBefore
    (parse : String → Option SimpleDate) (w : SimpleDate)
    (rows : List String) (l : List ProcessedRow)
    (h : findRowsToProcess true parse (some w) rows = .ok l)
    (i : Nat) (s : String) (hs : rows[i]? = some s)
    (d : SimpleDate) (hd : parse (jsTrim s) = some d) :
    ((∃ r ∈ l, r.selector = i + 1) ↔ dateLt w d = true) ∧
    (d = w → ∀ r ∈ l, r.selector ≠ i + 1) ∧
    (dateLt d w = true → ∀ r ∈ l, r.selector ≠ i + 1) := by
  simp only [findRowsToProcess, if_pos, Except.ok.injEq] at h
  subst h
  have key : (∃ r ∈ findRowsLoop parse (some w) rows 0, r.selector = i + 1) ↔
      dateLt w d = true := by
    constructor
    · rintro ⟨r, hr, hsel⟩
      rcases (mem_findRowsLoop_iff parse (some w) rows 0 r).mp hr with
        ⟨i', s', hs', hb, rfl⟩
      simp only at hsel
      have hii : i' = i := by omega
      subst hii
      rw [hs] at hs'
      have hss : s = s' := by simpa using hs'
      subst hss
      rw [hd] at hb
      simpa [momentIsBefore] using hb
    · intro hlt
      refine ⟨⟨parse (jsTrim s), 0 + i + 1, jsTrim s⟩,
        (mem_findRowsLoop_iff parse (some w) rows 0 _).mpr
          ⟨i, s, hs, ?_, rfl⟩, by simp⟩
      rw [hd]
      simpa [momentIsBefore] using hlt
  refine ⟨key, ?_, ?_⟩
  · rintro rfl r hr hsel
    have := key.mp ⟨r, hr, hsel⟩
    rw [dateLt_irrefl] at this
    exact Bool.false_ne_true this
  · intro hdw r hr hsel
    have hwd := key.mp ⟨r, hr, hsel⟩
    rw [dateLt_iff] at hdw hwd
    omega

/-- Witness for C1 at a concrete input: three rows dated after, at, and
before the watermark `2024-02-10`; only the first is selected. -/
theorem findRowsToProcess_selects_iff_watermark_isBefore_witness :
    ((∃ r ∈ [ProcessedRow.mk (some ⟨2024, 3, 5⟩) 1 "after"],
        r.selector = 0 + 1) ↔ dateLt ⟨2024, 2, 10⟩ ⟨2024, 3, 5⟩ = true) ∧
    ((⟨2024, 2, 10⟩ : SimpleDate) = ⟨2024, 2, 10⟩ →
      ∀ r ∈ [ProcessedRow.mk (some ⟨2024, 3, 5⟩) 1 "after"],
        r.selector ≠ 1 + 1) ∧
    (dateLt ⟨2024, 1, 1⟩ ⟨2024, 2, 10⟩ = true →
      ∀ r ∈ [ProcessedRow.mk (some ⟨2024, 3, 5⟩) 1 "after"],
        r.selector ≠ 2 + 1) := by
  have hmain := findRowsToProcess_selects_iff_watermark_isBefore
    (fun s => if s = "after" then some ⟨2024, 3, 5⟩
      else if s = "same" then some ⟨2024, 2, 10⟩
      else if s = "before" then some ⟨2024, 1, 1⟩ else none)
    ⟨2024, 2, 10⟩ ["after", "same", "before"]
    [ProcessedRow.mk (some ⟨2024, 3, 5⟩) 1 "after"]
    (by rfl) 0 "after" (by decide) ⟨2024, 3, 5⟩ (by decide)
  have hsame := findRowsToProcess_selects_iff_watermark_isBefore
    (fun s => if s = "after" then some ⟨2024, 3, 5⟩
      else if s = "same" then some ⟨2024, 2, 10⟩
      else if s = "before" then some ⟨2024, 1, 1⟩ else none)
    ⟨2024, 2, 10⟩ ["after", "same", "before"]
    [ProcessedRow.mk (some ⟨2024, 3, 5⟩) 1 "after"]
    (by rfl) 1 "same" (by decide) ⟨2024, 2, 10⟩ (by decide)
  have hbefore := findRowsToProcess_selects_iff_watermark_isBefore
    (fun s => if s = "after" then some ⟨2024, 3, 5⟩
      else if s = "same" then some ⟨2024, 2, 10⟩
      else if s = "before" then some ⟨2024, 1, 1⟩ else none)
    ⟨2024, 2, 10⟩ ["after", "same", "before"]
    [ProcessedRow.mk (some ⟨2024, 3, 5⟩) 1 "after"]
    (by rfl) 2 "before" (by decide) ⟨2024, 1, 1⟩ (by decide)
  exact ⟨hmain.1, hsame.2.1, hbefore.2.2⟩

theorem dateLt_false_iff (a b : SimpleDate) :
    dateLt a b = false ↔
      ¬(a.year < b.year ∨ (a.year = b.year ∧
        (a.month < b.month ∨ (a.month = b.month ∧ a.day < b.day)))) := by
  simp [dateLt]

/-- C4 counterexample: with a row list whose first date label fails to
parse, `findRowsToProcess` completes normally with `.ok`, skipping the
malformed row and still selecting the later well-formed row — it does not
abort the discovery call with an error. -/
theorem findRowsToProcess_parse_failure_counterexample :
    findRowsToProcess true
      (fun s => if s = "05/03/2024" then some ⟨2024, 3, 5⟩ else none)
      (some ⟨2024, 1, 1⟩) ["not a date", "05/03/2024"] =
      .ok [⟨some ⟨2024, 3, 5⟩, 2, "05/03/2024"⟩] := by rfl

/-- C4 (amended): a row whose date label fails to parse yields an invalid
moment, which compares `false` against the watermark; `findRowsToProcess`
therefore silently excludes that row and still examines and selects the
remaining rows — the discovery call completes without an error. -/
theorem findRowsToProcess_parse_failure_skips_row
    (parse : String → Option SimpleDate) (w : Option SimpleDate)
    (rows : List String) (i : Nat) (s : String)
    (hs : rows[i]? = some s) (hfail : parse (jsTrim s) = none) :
    findRowsToProcess true parse w rows = .ok (findRowsLoop parse w rows 0) ∧
    (∀ r ∈ findRowsLoop parse w rows 0, r.selector ≠ i + 1) ∧
    (∀ j t, rows[j]? = some t →
      momentIsBefore w (parse (jsTrim t)) = true →
      ∃ r ∈ findRowsLoop parse w rows 0, r.selector = j + 1) := by
  refine ⟨by simp [findRowsToProcess], ?_, ?_⟩
  · intro r hr hsel
    rcases (mem_findRowsLoop_iff parse w rows 0 r).mp hr with
      ⟨i', s', hs', hb, rfl⟩
    simp only at hsel
    have hii : i' = i := by omega
    subst hii
    rw [hs] at hs'
    have hss : s = s' := by simpa using hs'
    subst hss
    rw [hfail, momentIsBefore_none] at hb
    exact Bool.false_ne_true hb
  · intro j t ht hb
    exact ⟨⟨parse (jsTrim t), 0 + j + 1, jsTrim t⟩,
      (mem_findRowsLoop_iff parse w rows 0 _).mpr ⟨j, t, ht, hb, rfl⟩, by simp⟩

/-- Witness for the amended C4 at a concrete input: the first label is
malformed, the second row is still selected. -/
theorem findRowsToProcess_parse_failure_skips_row_witness :
    (findRowsToProcess true
        (fun s => if s = "05/03/2024" then some ⟨2024, 3, 5⟩ else none)
        (some ⟨2024, 1, 1⟩) ["not a date", "05/03/2024"] =
      .ok (findRowsLoop
        (fun s => if s = "05/03/2024" then some ⟨2024, 3, 5⟩ else none)
        (some ⟨2024, 1, 1⟩) ["not a date", "05/03/2024"] 0)) ∧
    (∀ r ∈ findRowsLoop
        (fun s => if s = "05/03/2024" then some ⟨2024, 3, 5⟩ else none)
        (some ⟨2024, 1, 1⟩) ["not a date", "05/03/2024"] 0,
      r.selector ≠ 0 + 1) ∧
    (∀ j t, (["not a date", "05/03/2024"] : List String)[j]? = some t →
      momentIsBefore (some ⟨2024, 1, 1⟩)
        ((fun s => if s = "05/03/2024" then some ⟨2024, 3, 5⟩ else none)
          (jsTrim t)) = true →
      ∃ r ∈ findRowsLoop
          (fun s => if s = "05/03/2024" then some ⟨2024, 3, 5⟩ else none)
          (some ⟨2024, 1, 1⟩) ["not a date", "05/03/2024"] 0,
        r.selector = j + 1) :=
  findRowsToProcess_parse_failure_skips_row
    (fun s => if s = "05/03/2024" then some ⟨2024, 3, 5⟩ else none)
    (some ⟨2024, 1, 1⟩) ["not a date", "05/03/2024"] 0 "not a date"
    (by rfl) (by decide)

/-- One step of the maximum-date accumulator used to express the watermark
advancement of C9: keep the later of two optional dates. -/
def maxStep (acc x : Option SimpleDate) : Option SimpleDate :=
  match acc, x with
  | some a, some b => some (if dateLt a b then b else a)
  | none, x => x
  | x, none => x

/-- The maximum issue date among the selected rows (the watermark an
external caller would advance to after a successful run). -/
def maxSelectedDate (l : List ProcessedRow) : Option SimpleDate :=
  l.foldl (fun acc r => maxStep acc r.date) none

theorem foldl_maxStep_bound (l : List ProcessedRow) :
    ∀ acc m, l.foldl (fun acc r => maxStep acc r.date) acc = some m →
      (∀ d, acc = some d → dateLt m d = false) ∧
      (∀ r ∈ l, ∀ d, r.date = some d → dateLt m d = false) := by
  induction l with
  | nil =>
    intro acc m h
    simp only [List.foldl_nil] at h
    subst h
    exact ⟨fun d hd => by simp_all [dateLt_irrefl], by simp⟩
  | cons r rest ih =>
    intro acc m h
    simp only [List.foldl_cons] at h
    obtain ⟨h1, h2⟩ := ih (maxStep acc r.date) m h
    have hstep : ∀ d, maxStep acc r.date = some d → dateLt m d = false :=
      fun d hd => h1 d hd
    constructor
    · rintro d rfl
      cases hx : r.date with
      | none => exact hstep d (by simp [maxStep, hx])
      | some b =>
        rcases hlt : dateLt d b with _ | _
        · exact hstep d (by simp [maxStep, hx, hlt])
        · have hmb : dateLt m b = false := hstep b (by simp [maxStep, hx, hlt])
          rw [dateLt_iff] at hlt
          rw [dateLt_false_iff] at hmb ⊢
          omega
    · intro r' hr' d hd
      rcases List.mem_cons.mp hr' with rfl | hmem
      · cases hacc : acc with
        | none => exact hstep d (by simp [maxStep, hacc, hd])
        | some a =>
          rcases hlt : dateLt a d with _ | _
          · have hma : dateLt m a = false :=
              hstep a (by simp [maxStep, hacc, hd, hlt])
            rw [dateLt_false_iff] at hma ⊢
            rw [dateLt_false_iff] at hlt
            omega
          · exact hstep d (by simp [maxStep, hacc, hd, hlt])
      · exact h2 r' hmem d hd

theorem foldl_maxStep_attained (l : List ProcessedRow) :
    ∀ acc m, l.foldl (fun acc r => maxStep acc r.date) acc = some m →
      acc = some m ∨ ∃ r ∈ l, r.date = some m := by
  induction l with
  | nil =>
    intro acc m h
    simp only [List.foldl_nil] at h
    exact Or.inl h
  | cons r rest ih =>
    intro acc m h
    simp only [List.foldl_cons] at h
    rcases ih (maxStep acc r.date) m h with hstep | ⟨r', hr', hd'⟩
    · cases hacc : acc with
      | none =>
        rw [hacc] at hstep
        cases hx : r.date with
        | none => rw [hx] at hstep; exact absurd hstep (by simp [maxStep])
        | some b =>
          rw [hx] at hstep
          right
          exact ⟨r, List.mem_cons_self r rest, by
            simp only [maxStep] at hstep
            rw [hx, hstep]⟩
      | some a =>
        rw [hacc] at hstep
        cases hx : r.date with
        | none =>
          rw [hx] at hstep
          left
          simpa [maxStep] using hstep
        | some b =>
          rw [hx] at hstep
          simp only [maxStep, Option.some.injEq] at hstep
          rcases hlt : dateLt a b with _ | _
          · left
            rw [hlt] at hstep
            simp at hstep
            rw [hstep]
          · right
            refine ⟨r, List.mem_cons_self r rest, ?_⟩
            rw [hx]
            rw [hlt] at hstep
            simp at hstep
            rw [hstep]
    · exact Or.inr ⟨r', List.mem_cons_of_mem r hr', hd'⟩

/-- C9: re-running the discovery filter with the watermark advanced to the
maximum issue date selected by the first run selects zero candidates. -/
theorem findRowsToProcess_rerun_with_max_watermark_empty
    (parse : String → Option SimpleDate) (w m : SimpleDate)
    (rows : List String) (l : List ProcessedRow)
    (h : findRowsToProcess true parse (some w) rows = .ok l)
    (hm : maxSelectedDate l = some m) :
    findRowsToProcess true parse (some m) rows = .ok [] := by
  simp only [findRowsToProcess, if_pos, Except.ok.injEq] at h ⊢
  subst h
  have hbound := (foldl_maxStep_bound _ none m hm).2
  have hatt := foldl_maxStep_attained _ none m hm
  rcases hatt with hatt | ⟨rmax, hrmax, hdmax⟩
  · exact absurd hatt (by simp)
  · have hwm : dateLt w m = true := by
      rcases (mem_findRowsLoop_iff parse (some w) rows 0 rmax).mp hrmax with
        ⟨i, s, hs, hb, rfl⟩
      simp only at hdmax
      rw [hdmax] at hb
      simpa [momentIsBefore] using hb
    rw [List.eq_nil_iff_forall_not_mem]
    intro r hr
    rcases (mem_findRowsLoop_iff parse (some m) rows 0 r).mp hr with
      ⟨i, s, hs, hb, rfl⟩
    rcases (momentIsBefore_some_iff m _).mp hb with ⟨d, hd, hmd⟩
    rcases hwd : dateLt w d with _ | _
    · rw [dateLt_iff] at hwm hmd
      rw [dateLt_false_iff] at hwd
      omega
    · have hmem : (⟨parse (jsTrim s), 0 + i + 1, jsTrim s⟩ : ProcessedRow) ∈
          findRowsLoop parse (some w) rows 0 :=
        (mem_findRowsLoop_iff parse (some w) rows 0 _).mpr
          ⟨i, s, hs, by rw [hd]; simpa [momentIsBefore] using hwd, rfl⟩
      have := hbound _ hmem d (by simpa using hd)
      rw [this] at hmd
      exact Bool.false_ne_true hmd

/-- Witness for C9 at a concrete input: two rows are selected in run 1;
re-filtering with the maximum selected date `2024-03-05` selects nothing. -/
theorem findRowsToProcess_rerun_with_max_watermark_empty_witness :
    findRowsToProcess true
      (fun s => if s = "a" then some ⟨2024, 1, 10⟩
        else if s = "b" then some ⟨2024, 3, 5⟩ else none)
      (some ⟨2024, 3, 5⟩) ["a", "b"] = .ok [] :=
  findRowsToProcess_rerun_with_max_watermark_empty
    (fun s => if s = "a" then some ⟨2024, 1, 10⟩
      else if s = "b" then some ⟨2024, 3, 5⟩ else none)
    ⟨2024, 1, 1⟩ ⟨2024, 3, 5⟩ ["a", "b"]
    [⟨some ⟨2024, 1, 10⟩, 1, "a"⟩, ⟨some ⟨2024, 3, 5⟩, 2, "b"⟩]
    (by rfl) (by rfl)

/-- Whether a per-record outcome is a success. -/
def exceptOk : Except String Unit → Bool
  | .ok _ => true
  | .error _ => false

/-- The per-item loop of `downloadInvoices` (lines 167–190): every index is
attempted in order; a throwing `processRowItem` is caught by the in-loop
`try`/`catch` and only skips the `downloadedCount` increment.  `outcome i`
models whether opening/downloading record `i` throws.  Returns the list of
attempted indices and the final `downloadedCount`. -/
def downloadLoop (outcome : Nat → Except String Unit) :
    List ProcessedRow → Nat → Nat → List Nat × Nat
  | [], _, acc => ([], acc)
  | _ :: rest, i, acc =>
    match outcome i with
    | .ok _ =>
      let r := downloadLoop outcome rest (i + 1) (acc + 1)
      (i :: r.1, r.2)
    | .error _ =>
      let r := downloadLoop outcome rest (i + 1) acc
      (i :: r.1, r.2)

/-- `downloadInvoices` (lines 144–193) once discovery has filled
`rowsToProcess`: an empty processing set short-circuits to
`{ total := 0, downloaded := 0 }`, otherwise the loop runs over all rows. -/
def downloadInvoices (outcome : Nat → Except String Unit)
    (rowsToProcess : List ProcessedRow) : Nat × Nat :=
  if rowsToProcess.length = 0 then (0, 0)
  else (rowsToProcess.length, (downloadLoop outcome rowsToProcess 0 0).2)

theorem downloadLoop_spec (outcome : Nat → Except String Unit)
    (rows : List ProcessedRow) : ∀ i acc,
    (downloadLoop outcome rows i acc).1 = List.range' i rows.length ∧
    (downloadLoop outcome rows i acc).2 =
      acc + (List.range' i rows.length).countP
        (fun k => exceptOk (outcome k)) := by
  induction rows with
  | nil => intro i acc; simp [downloadLoop]
  | cons r rest ih =>
    intro i acc
    have hrange : List.range' i (rest.length + 1) =
        i :: List.range' (i + 1) rest.length := List.range'_succ i rest.length 1
    cases ho : outcome i with
    | ok u =>
      obtain ⟨ha, hb⟩ := ih (i + 1) (acc + 1)
      have hloop1 : (downloadLoop outcome (r :: rest) i acc).1 =
          i :: (downloadLoop outcome rest (i + 1) (acc + 1)).1 := by
        simp [downloadLoop, ho]
      have hloop2 : (downloadLoop outcome (r :: rest) i acc).2 =
          (downloadLoop outcome rest (i + 1) (acc + 1)).2 := by
        simp [downloadLoop, ho]
      have hcount : (List.range' i (rest.length + 1)).countP
            (fun k => exceptOk (outcome k)) =
          (List.range' (i + 1) rest.length).countP
            (fun k => exceptOk (outcome k)) + 1 := by
        rw [hrange, List.countP_cons]
        simp [exceptOk, ho]
      constructor
      · rw [hloop1, ha, List.length_cons, hrange]
      · rw [hloop2, hb, List.length_cons, hcount]
        omega
    | error e =>
      obtain ⟨ha, hb⟩ := ih (i + 1) acc
      have hloop1 : (downloadLoop outcome (r :: rest) i acc).1 =
          i :: (downloadLoop outcome rest (i + 1) acc).1 := by
        simp [downloadLoop, ho]
      have hloop2 : (downloadLoop outcome (r :: rest) i acc).2 =
          (downloadLoop outcome rest (i + 1) acc).2 := by
        simp [downloadLoop, ho]
      have hcount : (List.range' i (rest.length + 1)).countP
            (fun k => exceptOk (outcome k)) =
          (List.range' (i + 1) rest.length).countP
            (fun k => exceptOk (outcome k)) := by
        rw [hrange, List.countP_cons]
        simp [exceptOk, ho]
      constructor
      · rw [hloop1, ha, List.length_cons, hrange]
      · rw [hloop2, hb, List.length_cons, hcount]

theorem countP_ok_add_countP_not (outcome : Nat → Except String Unit)
    (l : List Nat) :
    l.countP (fun k => exceptOk (outcome k)) +
      l.countP (fun k => !exceptOk (outcome k)) = l.length := by
  induction l with
  | nil => simp
  | cons a t ih =>
    simp only [List.countP_cons, List.length_cons]
    cases h : exceptOk (outcome a) <;> simp [h] <;> omega

/-- C2: every record index is attempted in order regardless of earlier
failures, and the final `downloaded` count equals the number of records
minus the number of records whose processing raised an error. -/
theorem downloadInvoices_isolates_failures
    (outcome : Nat → Except String Unit) (rows : List ProcessedRow) :
    (downloadLoop outcome rows 0 0).1 = List.range rows.length ∧
    (downloadInvoices outcome rows).1 = rows.length ∧
    (downloadInvoices outcome rows).2 =
      rows.length -
        ((List.range rows.length).filter
          (fun k => !exceptOk (outcome k))).length := by
  obtain ⟨h1, h2⟩ := downloadLoop_spec outcome rows 0 0
  have hr : List.range rows.length = List.range' 0 rows.length :=
    List.range_eq_range' rows.length
  have hsplit : (List.range' 0 rows.length).countP
        (fun k => exceptOk (outcome k)) +
      (List.range' 0 rows.length).countP (fun k => !exceptOk (outcome k)) =
        rows.length := by
    have := countP_ok_add_countP_not outcome (List.range' 0 rows.length)
    rwa [List.length_range'] at this
  have hfilter : ((List.range' 0 rows.length).filter
        (fun k => !exceptOk (outcome k))).length =
      (List.range' 0 rows.length).countP (fun k => !exceptOk (outcome k)) :=
    (List.countP_eq_length_filter _ _).symm
  refine ⟨by rw [h1, hr], ?_, ?_⟩
  · cases rows with
    | nil => simp [downloadInvoices]
    | cons r rest => simp [downloadInvoices]
  · cases rows with
    | nil => simp [downloadInvoices]
    | cons r rest =>
      have hn : (r :: rest).length ≠ 0 := by simp
      rw [hr, hfilter]
      simp only [downloadInvoices, if_neg hn, h2]
      omega

/-- Events observable at the collaborator boundary during `run`: reporter
prints (message, level) and the two session-release calls. -/
inductive RunEvent where
  | printEv : String → String → RunEvent
  | closePage : RunEvent
  | closeBrowser : RunEvent
deriving DecidableEq, Repr

/-- Number of occurrences of an event in a trace. -/
def countEvent (e : RunEvent) : List RunEvent → Nat
  | [] => 0
  | x :: rest => (if x = e then 1 else 0) + countEvent e rest

/-- The summary message printed for a non-empty run. -/
def downloadSummaryMsg (total downloaded : Nat) : String :=
  "Downloaded " ++ toString downloaded ++ "/" ++ toString total ++ " invoices"

/-- The reporting step of `run` (lines 85–96): picks the printed message and
the reporter level from the `(total, downloaded)` counts. -/
def reportDownloadOutcome (total downloaded : Nat) : RunEvent :=
  if 0 < total then
    .printEv (downloadSummaryMsg total downloaded)
      (if total = downloaded then "success"
        else if downloaded = 0 then "error" else "info")
  else .printEv "No invoices found to download" "warn"

/-- The level of a print event. -/
def eventLevel : RunEvent → String
  | .printEv _ lvl => lvl
  | _ => ""

theorem reportDownloadOutcome_ne_closePage (total downloaded : Nat) :
    reportDownloadOutcome total downloaded ≠ RunEvent.closePage := by
  simp only [reportDownloadOutcome]
  split <;> simp

theorem reportDownloadOutcome_ne_closeBrowser (total downloaded : Nat) :
    reportDownloadOutcome total downloaded ≠ RunEvent.closeBrowser := by
  simp only [reportDownloadOutcome]
  split <;> simp

/-- The collaborator outcomes `run` can encounter after `init` succeeded:
whether `login` throws, and whether the download phase throws or returns
counts. -/
structure RunEnv where
  loginResult : Except String Unit
  downloadResult : Except String (Nat × Nat)

/-- `run` (lines 66–104) after a successful `init`: the trace of reporter
prints and session-release calls, paired with the value returned to the
caller (the TypeScript method returns `undefined`, modelled as `Unit`). -/
def runAfterInit (env : RunEnv) : List RunEvent × Unit :=
  let pre := [RunEvent.printEv "Running..." "info",
    RunEvent.printEv "Trying to login..." "info"]
  match env.loginResult with
  | .error _ =>
    (pre ++
      [RunEvent.printEv "Failed to login with provided credentials" "error",
       RunEvent.closePage, RunEvent.closeBrowser], ())
  | .ok _ =>
    let body := [RunEvent.printEv "Logged in successfully" "info",
      RunEvent.printEv "Downloading invoices" "info"] ++
      (match env.downloadResult with
      | .ok (total, downloaded) => [reportDownloadOutcome total downloaded]
      | .error msg =>
        [RunEvent.printEv "Failed to download invoices" "error",
         RunEvent.printEv msg "error"])
    (pre ++ body ++ [RunEvent.closePage, RunEvent.closeBrowser], ())

/-- C3: on every exit path of `run` after initialization — login failure,
successful completion, and a download-phase exception — the page and the
browser are each released exactly once. -/
theorem run_closes_session_exactly_once (env : RunEnv) :
    countEvent RunEvent.closePage (runAfterInit env).1 = 1 ∧
    countEvent RunEvent.closeBrowser (runAfterInit env).1 = 1 := by
  obtain ⟨lr, dr⟩ := env
  cases lr with
  | error e => simp [runAfterInit, countEvent]
  | ok u =>
    cases dr with
    | error e => simp [runAfterInit, countEvent]
    | ok p =>
      obtain ⟨t, d⟩ := p
      have hp := reportDownloadOutcome_ne_closePage t d
      have hb := reportDownloadOutcome_ne_closeBrowser t d
      constructor <;> simp [runAfterInit, countEvent, hp, hb]

/-- C5 counterexample: two runs whose download phases produce different
`(total, downloaded)` counts return the identical value to the caller — the
return value of `run` is `undefined` and carries no `RunResult` counts. -/
theorem run_returns_no_counts_counterexample :
    (runAfterInit ⟨.ok (), .ok (5, 3)⟩).2 =
      (runAfterInit ⟨.ok (), .ok (2, 1)⟩).2 := rfl

/-- C5 (amended): `run` returns no value to its caller (`undefined`,
modelled as `Unit`); the `{ total, downloaded }` counts computed internally
by `downloadInvoices` surface only through the reporter, in the printed
summary message. -/
theorem run_reports_counts_only_via_reporter (total downloaded : Nat)
    (h : 0 < total) :
    (runAfterInit ⟨.ok (), .ok (total, downloaded)⟩).2 = () ∧
    RunEvent.printEv (downloadSummaryMsg total downloaded)
        (if total = downloaded then "success"
          else if downloaded = 0 then "error" else "info") ∈
      (runAfterInit ⟨.ok (), .ok (total, downloaded)⟩).1 := by
  refine ⟨rfl, ?_⟩
  simp [runAfterInit, reportDownloadOutcome, h]

/-- Witness for the amended C5 at `(total, downloaded) = (5, 3)`. -/
theorem run_reports_counts_only_via_reporter_witness :
    (runAfterInit ⟨.ok (), .ok (5, 3)⟩).2 = () ∧
    RunEvent.printEv (downloadSummaryMsg 5 3)
        (if 5 = 3 then "success" else if 3 = 0 then "error" else "info") ∈
      (runAfterInit ⟨.ok (), .ok (5, 3)⟩).1 :=
  run_reports_counts_only_via_reporter 5 3 (by decide)

/-- C6: classification of the reported outcome from `(total, downloaded)`:
`total = 0` prints the nothing-to-do warning, full success reports at level
`success`, total failure (`downloaded = 0 < total`) at level `error`, and
partial success at level `info`. -/
theorem reportDownloadOutcome_classification (total downloaded : Nat) :
    (total = 0 → reportDownloadOutcome total downloaded =
      .printEv "No invoices found to download" "warn") ∧
    (0 < total → total = downloaded →
      eventLevel (reportDownloadOutcome total downloaded) = "success") ∧
    (0 < total → downloaded = 0 →
      eventLevel (reportDownloadOutcome total downloaded) = "error") ∧
    (0 < total → downloaded ≠ 0 → total ≠ downloaded →
      eventLevel (reportDownloadOutcome total downloaded) = "info") := by
  refine ⟨?_, ?_, ?_, ?_⟩
  · rintro rfl
    simp [reportDownloadOutcome]
  · rintro ht rfl
    simp [reportDownloadOutcome, ht, eventLevel]
  · rintro ht rfl
    have hne : total ≠ 0 := by omega
    simp [reportDownloadOutcome, ht, hne, eventLevel]
  · intro ht hd htd
    simp [reportDownloadOutcome, ht, htd, hd, eventLevel]

/-- Witness for C6 at the four concrete pairs of the spec. -/
theorem reportDownloadOutcome_classification_witness :
    reportDownloadOutcome 0 0 =
      .printEv "No invoices found to download" "warn" ∧
    eventLevel (reportDownloadOutcome 5 5) = "success" ∧
    eventLevel (reportDownloadOutcome 5 0) = "error" ∧
    eventLevel (reportDownloadOutcome 5 3) = "info" :=
  ⟨(reportDownloadOutcome_classification 0 0).1 rfl,
   (reportDownloadOutcome_classification 5 5).2.1 (by decide) rfl,
   (reportDownloadOutcome_classification 5 0).2.2.1 (by decide) rfl,
   (reportDownloadOutcome_classification 5 3).2.2.2 (by decide) (by decide)
     (by decide)⟩

/-- Two-digit zero padding used by the numeric `moment` format tokens. -/
def pad2 (n : Nat) : String := if n < 10 then "0" ++ toString n else toString n

/-- Models `moment.format` for the token alphabet `YYYY`, `YY`, `MM`, `M`,
`DD`, `D` (longest match first, as `moment` tokenizes); any other character
is copied literally. -/
def formatTokens (d : SimpleDate) : List Char → String
  | [] => ""
  | 'Y' :: 'Y' :: 'Y' :: 'Y' :: rest => toString d.year ++ formatTokens d rest
  | 'Y' :: 'Y' :: rest => pad2 (d.year % 100) ++ formatTokens d rest
  | 'M' :: 'M' :: rest => pad2 d.month ++ formatTokens d rest
  | 'M' :: rest => toString d.month ++ formatTokens d rest
  | 'D' :: 'D' :: rest => pad2 d.day ++ formatTokens d rest
  | 'D' :: rest => toString d.day ++ formatTokens d rest
  | c :: rest => String.singleton c ++ formatTokens d rest

/-- Models `row.date.format(fmt)`; an invalid moment formats as the literal
string `Invalid date`. -/
def momentFormat (m : Option SimpleDate) (fmt : String) : String :=
  match m with
  | some d => formatTokens d fmt.data
  | none => "Invalid date"

/-- The filesystem effects of `saveInvoice` (lines 250–279): the path polled
for the downloaded file, and the source and target of the `fs.rename`. -/
structure SaveResult where
  waitPath : String
  renameFrom : String
  renameTo : String
deriving DecidableEq, Repr

/-- `saveInvoice` (lines 250–279): the download appears as
`<invoiceName>.<extension>` under `downloadPath` and is renamed to
`<issue date formatted with invoiceDateFormat>.<extension>` there. -/
def saveInvoice (invoiceDateFormat invoiceName invoiceExtension
    downloadPath : String) (row : ProcessedRow) : SaveResult :=
  let newFileName :=
    momentFormat row.date invoiceDateFormat ++ "." ++ invoiceExtension
  let fileName := invoiceName ++ "." ++ invoiceExtension
  { waitPath := downloadPath ++ "/" ++ fileName
    renameFrom := downloadPath ++ "/" ++ fileName
    renameTo := downloadPath ++ "/" ++ newFileName }

/-- C7: the stored filename is the record's issue date formatted with the
configured output pattern, a dot, and the configured extension; for issue
date 2024-03-05 under format `DD-MM-YY` the formatted name is exactly
`05-03-24`. -/
theorem saveInvoice_rename_deterministic
    (fmt name ext dp raw : String) (d : SimpleDate) (sel : Nat) :
    (saveInvoice fmt name ext dp ⟨some d, sel, raw⟩).renameTo =
      dp ++ "/" ++ (formatTokens d fmt.data ++ "." ++ ext) ∧
    momentFormat (some ⟨2024, 3, 5⟩) "DD-MM-YY" = "05-03-24" :=
  ⟨rfl, by rfl⟩

/-- `waitUntilFileIsDownloaded` (lines 288–294), fuel-indexed:
`fileExistsAt t` models the `fs.pathExists` check at the `t`-th poll; every
miss sleeps 1000 ms (`page.waitForTimeout(1000)`) and recurses with no
retry cap.  The `fuel` argument only makes the unbounded recursion
definable; `none` models an execution still polling (non-termination), not
an error — the function has no failure path.  On success it returns the
total milliseconds slept. -/
def waitUntilFileIsDownloaded (fileExistsAt : Nat → Bool) :
    Nat → Nat → Option Nat
  | 0, _ => none
  | fuel + 1, t =>
    if fileExistsAt t then some (1000 * t)
    else waitUntilFileIsDownloaded fileExistsAt fuel (t + 1)

theorem waitUntil_found (f : Nat → Bool) :
    ∀ fuel t k, t ≤ k → f k = true → (∀ j, t ≤ j → j < k → f j = false) →
      k < t + fuel → waitUntilFileIsDownloaded f fuel t = some (1000 * k) := by
  intro fuel
  induction fuel with
  | zero => intro t k _ _ _ h4; omega
  | succ n ih =>
    intro t k h1 h2 h3 h4
    by_cases ht : t = k
    · subst ht
      simp [waitUntilFileIsDownloaded, h2]
    · have hf : f t = false := h3 t le_rfl (by omega)
      simp only [waitUntilFileIsDownloaded, hf, Bool.false_eq_true, if_false]
      exact ih (t + 1) k (by omega) h2
        (fun j hj1 hj2 => h3 j (by omega) hj2) (by omega)

theorem waitUntil_absent (f : Nat → Bool) (h : ∀ j, f j = false) :
    ∀ fuel t, waitUntilFileIsDownloaded f fuel t = none := by
  intro fuel
  induction fuel with
  | zero => intro t; rfl
  | succ n ih => intro t; simp [waitUntilFileIsDownloaded, h t, ih]

theorem waitUntil_some_exists (f : Nat → Bool) :
    ∀ fuel t v, waitUntilFileIsDownloaded f fuel t = some v →
      ∃ k, f k = true ∧ v = 1000 * k := by
  intro fuel
  induction fuel with
  | zero =>
    intro t v h
    simp [waitUntilFileIsDownloaded] at h
  | succ n ih =>
    intro t v h
    by_cases hf : f t = true
    · simp only [waitUntilFileIsDownloaded, hf, if_true,
        Option.some.injEq] at h
      exact ⟨t, hf, h.symm⟩
    · rw [Bool.not_eq_true] at hf
      simp only [waitUntilFileIsDownloaded, hf, Bool.false_eq_true,
        if_false] at h
      exact ih (t + 1) v h

/-- C8: the polling wait returns exactly when the target file exists — at
the first poll tick where it does, after a fixed 1000 ms sleep per earlier
miss — it only ever returns with the file present (no error path), and
while the file stays absent it returns under no fuel bound (no maximum
retry count: it does not terminate). -/
theorem waitUntilFileIsDownloaded_polls_until_exists (f : Nat → Bool) :
    (∀ k, f k = true → (∀ j, j < k → f j = false) →
      ∀ fuel, k < fuel →
        waitUntilFileIsDownloaded f fuel 0 = some (1000 * k)) ∧
    ((∀ j, f j = false) →
      ∀ fuel, waitUntilFileIsDownloaded f fuel 0 = none) ∧
    (∀ fuel t v, waitUntilFileIsDownloaded f fuel t = some v →
      ∃ k, f k = true ∧ v = 1000 * k) := by
  refine ⟨?_, ?_, waitUntil_some_exists f⟩
  · intro k hk hmin fuel hfuel
    exact waitUntil_found f fuel 0 k (Nat.zero_le k) hk
      (fun j _ hj => hmin j hj) (by omega)
  · intro h fuel
    exact waitUntil_absent f h fuel 0

/-- Witness for C8: a file appearing at the third poll tick is detected
after exactly 2000 ms of sleeping; a file that never appears makes the
wait return under no fuel bound. -/
theorem waitUntilFileIsDownloaded_polls_until_exists_witness :
    waitUntilFileIsDownloaded (fun k => k == 2) 5 0 = some (1000 * 2) ∧
    waitUntilFileIsDownloaded (fun _ => false) 7 0 = none ∧
    ∃ k, ((fun k => k == 2) k) = true ∧ 2000 = 1000 * k :=
  ⟨(waitUntilFileIsDownloaded_polls_until_exists (fun k => k == 2)).1 2
      (by decide) (by decide) 5 (by decide),
   (waitUntilFileIsDownloaded_polls_until_exists (fun _ => false)).2.1
      (fun _ => rfl) 7,
   (waitUntilFileIsDownloaded_polls_until_exists (fun k => k == 2)).2.2 5 0
      2000 (by rfl)⟩

/-- Segment decomposition at `'/'` used by the Node `path.posix`
normalization model; empty segments are kept. -/
def splitSlash : List Char → List (List Char)
  | [] => [[]]
  | c :: rest =>
    if c = '/' then [] :: splitSlash rest
    else
      match splitSlash rest with
      | s :: ss => (c :: s) :: ss
      | [] => [[c]]

/-- Inverse of `splitSlash`: interleave the segments with `'/'`. -/
def joinSegs : List (List Char) → List Char
  | [] => []
  | [s] => s
  | s :: t :: ss => s ++ '/' :: joinSegs (t :: ss)

/-- A path segment that Node normalization neither drops nor resolves. -/
def cleanSeg (seg : List Char) : Prop :=
  seg ≠ [] ∧ seg ≠ ['.'] ∧ seg ≠ ['.', '.']

instance (seg : List Char) : Decidable (cleanSeg seg) := by
  unfold cleanSeg
  infer_instance

/-- One step of Node path normalization over the segment stack: drop empty
and `.` segments, resolve `..` against the stack. -/
def normStep (absolute : Bool) (acc : List (List Char)) (seg : List Char) :
    List (List Char) :=
  if seg = [] ∨ seg = ['.'] then acc
  else if seg = ['.', '.'] then
    match acc with
    | [] => if absolute then [] else [['.', '.']]
    | a :: rest => if a = ['.', '.'] then seg :: acc else rest
  else seg :: acc

/-- Whether a character path is absolute (leading `'/'`). -/
def isAbsoluteChars : List Char → Bool
  | c :: _ => decide (c = '/')
  | [] => false

/-- Whether a character path ends with `'/'`. -/
def hasTrailingSlash (cs : List Char) : Bool :=
  match cs.getLast? with
  | some c => decide (c = '/')
  | none => false

/-- The normalized segment list of a character path. -/
def normSegsOf (cs : List Char) : List (List Char) :=
  ((splitSlash cs).foldl (normStep (isAbsoluteChars cs)) []).reverse

/-- Models Node `path.posix.normalize`: collapse duplicate separators,
resolve `.` and `..`, preserve a trailing separator, restore the leading
separator of an absolute path. -/
def normalizeChars (cs : List Char) : List Char :=
  let path := joinSegs (normSegsOf cs)
  let path1 := if path = [] ∧ isAbsoluteChars cs = false then ['.'] else path
  let path2 :=
    if path1 ≠ [] ∧ hasTrailingSlash cs then path1 ++ ['/'] else path1
  if isAbsoluteChars cs then '/' :: path2 else path2

/-- Models Node `path.posix.join` on two character paths: concatenate the
non-empty parts with a separator and normalize. -/
def pathJoinChars (a b : List Char) : List Char :=
  if a = [] ∧ b = [] then ['.']
  else if a = [] then normalizeChars b
  else if b = [] then normalizeChars a
  else normalizeChars (a ++ '/' :: b)

/-- Models `path.join` as called by the constructor
(`path.join(downloadDir, "/endesa/")`). -/
def pathJoin (a b : String) : String :=
  ⟨pathJoinChars a.data b.data⟩

/-- The constructor arguments from `HuntConfig` relevant here. -/
structure HunterArgs where
  username : String
  password : String
  invoiceNameFormat : Option String

/-- The constructor-set fields of `EndesaHunter` that the download path
depends on. -/
structure HunterState where
  downloadDir : String
  invoiceDateFormat : String
  lastInvoiceDate : Option SimpleDate

/-- The constructor (lines 43–64): `downloadDir` becomes
`path.join(downloadDir, "/endesa/")` and the output date format defaults
to `DD-MM-YY`. -/
def mkEndesaHunter (config : HunterArgs) (downloadDir : String)
    (lastInvoiceDate : Option SimpleDate) : HunterState :=
  { downloadDir := pathJoin downloadDir "/endesa/"
    invoiceDateFormat := config.invoiceNameFormat.getD "DD-MM-YY"
    lastInvoiceDate := lastInvoiceDate }

theorem splitSlash_ne_nil (cs : List Char) : splitSlash cs ≠ [] := by
  cases cs with
  | nil => simp [splitSlash]
  | cons c rest =>
    simp only [splitSlash]
    split
    · simp
    · split <;> simp

theorem splitSlash_exists_cons (cs : List Char) :
    ∃ s ss, splitSlash cs = s :: ss := by
  cases h : splitSlash cs with
  | nil => exact absurd h (splitSlash_ne_nil cs)
  | cons s ss => exact ⟨s, ss, rfl⟩

theorem splitSlash_cons_slash (rest : List Char) :
    splitSlash ('/' :: rest) = [] :: splitSlash rest := by
  simp [splitSlash]

theorem splitSlash_cons_ne (c : Char) (rest : List Char) (hc : ¬c = '/') :
    splitSlash (c :: rest) =
      match splitSlash rest with
      | s :: ss => (c :: s) :: ss
      | [] => [[c]] := by
  simp [splitSlash, hc]

theorem splitSlash_append (u v : List Char) :
    splitSlash (u ++ '/' :: v) = splitSlash u ++ splitSlash v := by
  induction u with
  | nil => simp [splitSlash]
  | cons c rest ih =>
    have e : (c :: rest) ++ '/' :: v = c :: (rest ++ '/' :: v) := rfl
    by_cases hc : c = '/'
    · subst hc
      rw [e, splitSlash_cons_slash, splitSlash_cons_slash, ih]
      rfl
    · obtain ⟨s, ss, hss⟩ := splitSlash_exists_cons rest
      rw [e, splitSlash_cons_ne c _ hc, splitSlash_cons_ne c _ hc, ih, hss]
      rfl

theorem joinSegs_splitSlash (cs : List Char) :
    joinSegs (splitSlash cs) = cs := by
  induction cs with
  | nil => rfl
  | cons c rest ih =>
    obtain ⟨s, ss, hss⟩ := splitSlash_exists_cons rest
    by_cases hc : c = '/'
    · subst hc
      simp only [splitSlash, if_pos rfl, hss]
      rw [hss] at ih
      simp only [joinSegs] at ih ⊢
      cases ss with
      | nil => simp [ih]
      | cons t ts => simp [ih]
    · simp only [splitSlash, if_neg hc, hss]
      rw [hss] at ih
      cases ss with
      | nil => simpa [joinSegs] using ih
      | cons t ts =>
        simp only [joinSegs] at ih ⊢
        rw [← ih]
        simp

theorem joinSegs_append_singleton (S : List (List Char)) (x : List Char)
    (h : S ≠ []) : joinSegs (S ++ [x]) = joinSegs S ++ '/' :: x := by
  induction S with
  | nil => exact absurd rfl h
  | cons s ss ih =>
    cases ss with
    | nil => simp [joinSegs]
    | cons t ts =>
      have hrec := ih (by simp)
      have e1 : (s :: t :: ts) ++ [x] = s :: t :: (ts ++ [x]) := rfl
      rw [e1]
      simp only [joinSegs]
      have e2 : t :: (ts ++ [x]) = (t :: ts) ++ [x] := rfl
      rw [show joinSegs (t :: (ts ++ [x])) = joinSegs ((t :: ts) ++ [x]) from rfl,
        hrec]
      simp

theorem normStep_nil (abs : Bool) (acc : List (List Char)) :
    normStep abs acc [] = acc := by
  simp [normStep]

theorem normStep_clean (abs : Bool) (acc : List (List Char))
    (seg : List Char) (h : cleanSeg seg) : normStep abs acc seg = seg :: acc := by
  obtain ⟨h1, h2, h3⟩ := h
  simp [normStep, h1, h2, h3]

theorem foldl_normStep_clean (abs : Bool) (S : List (List Char)) :
    ∀ acc, (∀ seg ∈ S, cleanSeg seg) →
      S.foldl (normStep abs) acc = S.reverse ++ acc := by
  induction S with
  | nil => intro acc _; simp
  | cons s ss ih =>
    intro acc h
    have hs := h s (List.mem_cons_self s ss)
    simp only [List.foldl_cons, normStep_clean abs acc s hs]
    rw [ih (s :: acc) (fun seg hseg => h seg (List.mem_cons_of_mem s hseg))]
    simp

/-- The characters of the appended subdirectory name. -/
def endesaSegChars : List Char := ['e', 'n', 'd', 'e', 's', 'a']

theorem pathJoin_endesa (d : String)
    (habs : isAbsoluteChars d.data = true)
    (hclean : ∀ seg ∈ (splitSlash d.data).drop 1, cleanSeg seg) :
    pathJoin d "/endesa/" = d ++ "/endesa/" := by
  obtain ⟨c, tl, hd⟩ : ∃ c tl, d.data = c :: tl := by
    cases hdd : d.data with
    | nil => rw [hdd] at habs; simp [isAbsoluteChars] at habs
    | cons c tl => exact ⟨c, tl, rfl⟩
  have hc : c = '/' := by
    rw [hd] at habs
    simpa [isAbsoluteChars] using habs
  subst hc
  have hBdata : "/endesa/".data = '/' :: (endesaSegChars ++ ['/']) := by decide
  have hne1 : ¬(d.data = []) := by rw [hd]; simp
  have hneB : ¬('/' :: (endesaSegChars ++ ['/']) = ([] : List Char)) := by decide
  have hsplitD : splitSlash d.data = [] :: splitSlash tl := by
    rw [hd, splitSlash_cons_slash]
  have hSclean : ∀ seg ∈ splitSlash tl, cleanSeg seg := by
    intro seg hseg
    apply hclean
    rw [hsplitD]
    simpa using hseg
  have hEclean : cleanSeg endesaSegChars := by decide
  have hsplitB : splitSlash ('/' :: (endesaSegChars ++ ['/'])) =
      [[], endesaSegChars, []] := by decide
  have hsplitJ : splitSlash (d.data ++ '/' :: ('/' :: (endesaSegChars ++ ['/']))) =
      ([] :: splitSlash tl) ++ [[], endesaSegChars, []] := by
    rw [splitSlash_append, hsplitB, hsplitD]
  have habs2 : isAbsoluteChars
      (d.data ++ '/' :: ('/' :: (endesaSegChars ++ ['/']))) = true := by
    rw [hd]
    simp [isAbsoluteChars]
  have htrail2 : hasTrailingSlash
      (d.data ++ '/' :: ('/' :: (endesaSegChars ++ ['/']))) = true := by
    simp only [hasTrailingSlash, List.getLast?_append_cons]
    decide
  have hinner : List.foldl (normStep true) [] ([] :: splitSlash tl) =
      (splitSlash tl).reverse := by
    rw [List.foldl_cons, normStep_nil,
      foldl_normStep_clean true (splitSlash tl) [] hSclean, List.append_nil]
  have hfold : (splitSlash
        (d.data ++ '/' :: ('/' :: (endesaSegChars ++ ['/'])))).foldl
      (normStep true) [] = endesaSegChars :: (splitSlash tl).reverse := by
    rw [hsplitJ, List.foldl_append, hinner, List.foldl_cons, normStep_nil,
      List.foldl_cons, normStep_clean true _ _ hEclean, List.foldl_cons,
      normStep_nil, List.foldl_nil]
  have hsegs : normSegsOf (d.data ++ '/' :: ('/' :: (endesaSegChars ++ ['/']))) =
      splitSlash tl ++ [endesaSegChars] := by
    simp only [normSegsOf, habs2, hfold]
    simp
  have hpath : joinSegs
      (normSegsOf (d.data ++ '/' :: ('/' :: (endesaSegChars ++ ['/'])))) =
      tl ++ '/' :: endesaSegChars := by
    rw [hsegs, joinSegs_append_singleton _ _ (splitSlash_ne_nil tl),
      joinSegs_splitSlash]
  have hneAnd : ¬(d.data = [] ∧ '/' :: (endesaSegChars ++ ['/']) = ([] : List Char)) :=
    fun h => hne1 h.1
  have hgoal : pathJoinChars d.data ('/' :: (endesaSegChars ++ ['/'])) =
      d.data ++ '/' :: (endesaSegChars ++ ['/']) := by
    simp only [pathJoinChars, if_neg hneAnd, if_neg hne1, if_neg hneB]
    simp only [normalizeChars]
    rw [hpath, habs2, htrail2]
    have hpne : ¬(tl ++ '/' :: endesaSegChars = []) := by simp
    simp only [Bool.true_eq_false, and_false, if_false, ne_eq, hpne,
      not_false_eq_true, and_true, if_true, if_pos]
    rw [hd]
    simp [List.append_assoc]
  show (⟨pathJoinChars d.data "/endesa/".data⟩ : String) = d ++ "/endesa/"
  have hfin : pathJoinChars d.data "/endesa/".data = d.data ++ "/endesa/".data := by
    rw [hBdata, hgoal]
  rw [hfin]
  cases d with
  | mk data => rfl

/-- C10: the constructor joins the supplied output directory with
`"/endesa/"`; for a clean absolute output directory the hunter's download
directory is the `endesa/` subdirectory of the supplied directory — a
different path — and every file `saveInvoice` stores or renames lives under
that subdirectory, not in the supplied directory itself. -/
theorem downloadDir_is_endesa_subdirectory (config : HunterArgs)
    (w : Option SimpleDate) (d : String)
    (habs : isAbsoluteChars d.data = true)
    (hclean : ∀ seg ∈ (splitSlash d.data).drop 1, cleanSeg seg) :
    (mkEndesaHunter config d w).downloadDir = d ++ "/endesa/" ∧
    (mkEndesaHunter config d w).downloadDir ≠ d ∧
    (∀ fmt name ext row,
      (saveInvoice fmt name ext (mkEndesaHunter config d w).downloadDir
          row).renameTo =
        (d ++ "/endesa/") ++ "/" ++
          (momentFormat row.date fmt ++ "." ++ ext)) := by
  have h1 : (mkEndesaHunter config d w).downloadDir = d ++ "/endesa/" :=
    pathJoin_endesa d habs hclean
  refine ⟨h1, ?_, ?_⟩
  · rw [h1]
    intro he
    have hlen : (d ++ "/endesa/").data.length = d.data.length := by rw [he]
    rw [String.data_append, List.length_append] at hlen
    have h8 : ("/endesa/".data).length = 8 := by decide
    rw [h8] at hlen
    omega
  · intro fmt name ext row
    rw [h1]
    rfl

/-- Witness for C10 at the concrete output directory `/out`. -/
theorem downloadDir_is_endesa_subdirectory_witness :
    (mkEndesaHunter ⟨"u", "p", none⟩ "/out" none).downloadDir =
      "/out" ++ "/endesa/" ∧
    (mkEndesaHunter ⟨"u", "p", none⟩ "/out" none).downloadDir ≠ "/out" ∧
    (saveInvoice "DD-MM-YY" "invoice" "pdf"
        (mkEndesaHunter ⟨"u", "p", none⟩ "/out" none).downloadDir
        ⟨some ⟨2024, 3, 5⟩, 1, "05/03/2024"⟩).renameTo =
      ("/out" ++ "/endesa/") ++ "/" ++
        (momentFormat (some ⟨2024, 3, 5⟩) "DD-MM-YY" ++ "." ++ "pdf") := by
  have h := downloadDir_is_endesa_subdirectory ⟨"u", "p", none⟩ none "/out"
    (by decide) (by decide)
  exact ⟨h.1, h.2.1, h.2.2 "DD-MM-YY" "invoice" "pdf"
    ⟨some ⟨2024, 3, 5⟩, 1, "05/03/2024"⟩⟩

end EndesaHunter
